import Mathlib

/-!
Verification of the Serato crate/session TLV codec scripts.

This file embeds, in Lean, the byte-level codec functions of the repository:

* `parse_serato_crates.py` — `decode_struct` (no bounds checks), `decode`,
  `encode_struct`, `encode_value`, `update_crate_paths`;
* `crate_reader.py` — `decode_struct` (bounds-checked), `decode`,
  `decode_unicode`, `decode_unsigned`;
* `serato_monitor.py` — `decode_string`, `decode_int`, and the session parser
  (`_parse_chunk`, `_parse_oent`, `_parse_fields`);
* `parse_session_to_csv.py` — `parse_adat`, `decode_string`, `decode_int`.

Bytes are modelled as `Nat` (values < 256 where it matters), Python `bytes`
as `List Nat`, Python `str` as Lean `String`, and a raised exception as
`Option.none`.  Loops over a buffer are modelled with an explicit fuel
argument (structural recursion on the fuel) plus a wrapper that supplies
`length + 1` fuel; fuel-stability lemmas show the fuel is irrelevant beyond
that bound, which is also the formal content of the termination claim.
-/

/-! ### Byte-level primitives -/

/-- Big-endian base-256 value of a byte string: Python `int.from_bytes(bs, 'big')`. -/
def beDec (bs : List Nat) : Nat := bs.foldl (fun a b => a * 256 + b) 0

/-- The four big-endian bytes of a `u32`: Python `struct.pack('>I', n)`
    (which additionally requires `n < 2^32`; callers guard this). -/
def be32enc (n : Nat) : List Nat :=
  [n / 16777216 % 256, n / 65536 % 256, n / 256 % 256, n % 256]

theorem be32enc_length (n : Nat) : (be32enc n).length = 4 := rfl

theorem beDec_be32enc (n : Nat) (h : n < 4294967296) : beDec (be32enc n) = n := by
  simp only [be32enc, beDec, List.foldl]
  omega

/-- Python `bytes.decode('ascii')`: succeeds iff every byte is < 128. -/
def ascii_decode (bs : List Nat) : Option String :=
  if bs.all (fun b => b < 128) then some (String.mk (bs.map Char.ofNat)) else none

/-- Python `str.encode('ascii')`: succeeds iff every char is < U+0080. -/
def ascii_encode (s : String) : Option (List Nat) :=
  if s.data.all (fun c => c.toNat < 128) then some (s.data.map Char.toNat) else none

theorem ascii_roundtrip (s : String) (bs : List Nat)
    (h : ascii_encode s = some bs) : ascii_decode bs = some s := by
  unfold ascii_encode at h
  split at h
  case isTrue hall =>
    have hbs : bs = s.data.map Char.toNat := by
      injection h with h; exact h.symm
    subst hbs
    unfold ascii_decode
    rw [if_pos]
    · congr 1
      cases s with
      | mk l =>
        simp only [List.map_map]
        congr 1
        refine List.map_congr_left ?_ |>.trans (List.map_id l)
        intro c _
        exact Char.ofNat_toNat c
    · simp only [List.all_eq_true, decide_eq_true_eq] at hall ⊢
      intro x hx
      obtain ⟨c, hc, rfl⟩ := List.mem_map.mp hx
      exact hall c hc
  case isFalse => exact absurd h (by simp)

/-! ### UTF-16 big-endian and little-endian (Python strict codecs) -/

/-- Group a byte string into big-endian 16-bit code units; `none` on odd
    length (Python utf-16 decoding raises on truncated data). -/
def toUnitsBE : List Nat → Option (List Nat)
  | [] => some []
  | b0 :: b1 :: rest => (toUnitsBE rest).map (fun us => (b0 * 256 + b1) :: us)
  | _ => none

/-- Group a byte string into little-endian 16-bit code units. -/
def toUnitsLE : List Nat → Option (List Nat)
  | [] => some []
  | b0 :: b1 :: rest => (toUnitsLE rest).map (fun us => (b0 + b1 * 256) :: us)
  | _ => none

/-- Combine UTF-16 code units into characters; the first argument is a
    pending high surrogate awaiting its low half.  A high surrogate must be
    followed by a low surrogate, a lone surrogate raises (`none`).  This is
    the strict error handling of Python's utf-16 codecs. -/
def unitsToCharsGo : Option Nat → List Nat → Option (List Char)
  | none, [] => some []
  | some _, [] => none
  | none, u :: rest =>
    if u < 55296 ∨ 57344 ≤ u then
      (unitsToCharsGo none rest).map (fun l => Char.ofNat u :: l)
    else if u < 56320 then unitsToCharsGo (some u) rest
    else none
  | some hsur, v :: rest =>
    if 56320 ≤ v ∧ v < 57344 then
      (unitsToCharsGo none rest).map
        (fun l => Char.ofNat (65536 + (hsur - 55296) * 1024 + (v - 56320)) :: l)
    else none

/-- Combine UTF-16 code units into characters (no pending surrogate). -/
def unitsToChars (us : List Nat) : Option (List Char) := unitsToCharsGo none us

/-- Python `bytes.decode('utf-16-be')` (strict), producing the char list. -/
def utf16beDecodeCh (bs : List Nat) : Option (List Char) :=
  (toUnitsBE bs).bind unitsToChars

/-- Python `bytes.decode('utf-16-le')` (strict), producing the char list. -/
def utf16leDecodeCh (bs : List Nat) : Option (List Char) :=
  (toUnitsLE bs).bind unitsToChars

/-- UTF-16 code units of a character list (BMP chars give one unit,
    the rest a surrogate pair). -/
def unitsOfChars : List Char → List Nat
  | [] => []
  | c :: cs =>
    if c.toNat < 65536 then c.toNat :: unitsOfChars cs
    else (55296 + (c.toNat - 65536) / 1024) :: (56320 + (c.toNat - 65536) % 1024) ::
      unitsOfChars cs

/-- Serialize 16-bit units as big-endian byte pairs. -/
def bytesOfUnitsBE : List Nat → List Nat
  | [] => []
  | u :: us => u / 256 :: u % 256 :: bytesOfUnitsBE us

/-- Python `str.encode('utf-16-be')`. -/
def utf16beEncodeCh (l : List Char) : List Nat := bytesOfUnitsBE (unitsOfChars l)

theorem charToNat_valid (c : Char) :
    c.toNat < 55296 ∨ (57343 < c.toNat ∧ c.toNat < 1114112) := c.valid

theorem unitsOfChars_lt (l : List Char) :
    (unitsOfChars l).all (fun u => u < 65536) = true := by
  induction l with
  | nil => rfl
  | cons c cs ih =>
    have hv := charToNat_valid c
    by_cases h : c.toNat < 65536
    · rw [show unitsOfChars (c :: cs) = c.toNat :: unitsOfChars cs by simp [unitsOfChars, h]]
      simp only [List.all_cons, Bool.and_eq_true, decide_eq_true_eq]
      exact ⟨by omega, ih⟩
    · have hmlt : (c.toNat - 65536) % 1024 < 1024 := Nat.mod_lt _ (by omega)
      have hdlt : (c.toNat - 65536) / 1024 < 1024 := by omega
      rw [show unitsOfChars (c :: cs) = (55296 + (c.toNat - 65536) / 1024) ::
          (56320 + (c.toNat - 65536) % 1024) :: unitsOfChars cs by simp [unitsOfChars, h]]
      simp only [List.all_cons, Bool.and_eq_true, decide_eq_true_eq]
      exact ⟨by omega, by omega, ih⟩

theorem toUnitsBE_bytesOfUnitsBE (us : List Nat)
    (h : us.all (fun u => u < 65536) = true) :
    toUnitsBE (bytesOfUnitsBE us) = some us := by
  induction us with
  | nil => rfl
  | cons u us ih =>
    simp only [List.all_cons, Bool.and_eq_true, decide_eq_true_eq] at h
    simp only [bytesOfUnitsBE, toUnitsBE, ih h.2]
    have : u / 256 * 256 + u % 256 = u := by omega
    rw [this]
    rfl

theorem unitsToChars_unitsOfChars : ∀ l : List Char, unitsToChars (unitsOfChars l) = some l := by
  intro l
  unfold unitsToChars
  induction l with
  | nil => rfl
  | cons c cs ih =>
    have hv := charToNat_valid c
    by_cases h : c.toNat < 65536
    · rw [show unitsOfChars (c :: cs) = c.toNat :: unitsOfChars cs by
        simp [unitsOfChars, h]]
      rw [unitsToCharsGo, if_pos (by omega), ih]
      simp [Char.ofNat_toNat]
    · have hmlt : (c.toNat - 65536) % 1024 < 1024 := Nat.mod_lt _ (by omega)
      have hdlt : (c.toNat - 65536) / 1024 < 1024 := by omega
      rw [show unitsOfChars (c :: cs) = (55296 + (c.toNat - 65536) / 1024) ::
          (56320 + (c.toNat - 65536) % 1024) :: unitsOfChars cs by
        simp [unitsOfChars, h]]
      rw [unitsToCharsGo, if_neg (by omega), if_pos (by omega)]
      rw [unitsToCharsGo, if_pos (by omega)]
      rw [ih]
      have hcp : 65536 + (55296 + (c.toNat - 65536) / 1024 - 55296) * 1024 +
          (56320 + (c.toNat - 65536) % 1024 - 56320) = c.toNat := by omega
      have hcp2 : 65536 + (c.toNat - 65536) / 1024 * 1024 + (c.toNat - 65536) % 1024 =
          c.toNat := by omega
      simp [hcp, hcp2, Char.ofNat_toNat]

theorem utf16be_roundtrip (l : List Char) : utf16beDecodeCh (utf16beEncodeCh l) = some l := by
  unfold utf16beDecodeCh utf16beEncodeCh
  rw [toUnitsBE_bytesOfUnitsBE _ (unitsOfChars_lt l)]
  simpa using unitsToChars_unitsOfChars l

/-! ### TLV data model (crate files) -/

/-- Decoded TLV value: UTF-16BE text, unsigned 32-bit integer, raw bytes,
    or an ordered container of (tag, value) children. -/
inductive TlvValue where
  | text (s : String)
  | uint (n : Nat)
  | raw (bs : List Nat)
  | container (es : List (String × TlvValue))

/-- Python `decode_unicode` (crate_reader.py / parse_serato_crates.py):
    strict `data.decode('utf-16-be')`. -/
def decode_unicode (bs : List Nat) : Option String :=
  (utf16beDecodeCh bs).map String.mk

/-- Python `decode_unsigned`: `struct.unpack('>I', data)[0]`, which requires
    exactly 4 bytes. -/
def decode_unsigned (bs : List Nat) : Option Nat :=
  if bs.length = 4 then some (beDec bs) else none

/-- The `decode(data, tag)` dispatcher shared by crate_reader.py and
    parse_serato_crates.py, parametric in the structured decoder used for
    container tags.  Exact-tag rules (`vrsn`, `sbav`) take precedence, then
    first-character rules `o`/`t`/`p`/`u`/`b`; any other first character hits
    `DECODE_FUNC_FIRST[tag[0]]` with no entry, a `KeyError` (`none`). -/
def decodeValueAux (recEnt : List Nat → Option (List (String × TlvValue)))
    (tag : String) (data : List Nat) : Option TlvValue :=
  if tag = "vrsn" then (decode_unicode data).map TlvValue.text
  else if tag = "sbav" then some (TlvValue.raw data)
  else if tag.data.head? = some 'o' then (recEnt data).map TlvValue.container
  else if tag.data.head? = some 't' then (decode_unicode data).map TlvValue.text
  else if tag.data.head? = some 'p' then (decode_unicode data).map TlvValue.text
  else if tag.data.head? = some 'u' then (decode_unsigned data).map TlvValue.uint
  else if tag.data.head? = some 'b' then some (TlvValue.raw data)
  else none

/-- Python `decode_struct` of crate_reader.py (the bounds-checked variant),
    with explicit fuel.  Per loop step: stop if fewer than 8 bytes remain;
    read a 4-byte ASCII tag and a 4-byte big-endian length; stop if the
    value would overrun the buffer; decode the value by tag; continue after
    the value. -/
def crDecodeStructF : Nat → List Nat → Option (List (String × TlvValue))
  | 0, _ => none
  | fuel + 1, data =>
    if data.length < 8 then some []
    else
      match ascii_decode (data.take 4) with
      | none => none
      | some tag =>
        if data.length < 8 + beDec ((data.drop 4).take 4) then some []
        else
          match decodeValueAux (crDecodeStructF fuel) tag
              ((data.drop 8).take (beDec ((data.drop 4).take 4))) with
          | none => none
          | some v =>
            match crDecodeStructF fuel (data.drop (8 + beDec ((data.drop 4).take 4))) with
            | none => none
            | some rest => some ((tag, v) :: rest)

/-- crate_reader.py `decode_struct` (fuel instantiated, one more than the
    buffer length always suffices). -/
def crate_decode_struct (data : List Nat) : Option (List (String × TlvValue)) :=
  crDecodeStructF (data.length + 1) data

/-- crate_reader.py `decode(data, tag)` for a non-`None` tag. -/
def crate_decode (tag : String) (data : List Nat) : Option TlvValue :=
  decodeValueAux crate_decode_struct tag data

theorem decodeValueAux_congr (r1 r2 : List Nat → Option (List (String × TlvValue)))
    (tag : String) (data : List Nat) (h : r1 data = r2 data) :
    decodeValueAux r1 tag data = decodeValueAux r2 tag data := by
  unfold decodeValueAux
  rw [h]

theorem crDecodeStructF_stable : ∀ fuel data, data.length < fuel →
    crDecodeStructF fuel data = crate_decode_struct data := by
  intro fuel
  induction fuel using Nat.strong_induction_on with
  | _ fuel ih =>
    intro data hlt
    match fuel, hlt with
    | fuel + 1, hlt =>
      unfold crate_decode_struct
      rw [crDecodeStructF]
      conv_rhs => rw [crDecodeStructF]
      by_cases h8 : data.length < 8
      · simp [h8]
      · simp only [h8, if_false]
        cases hasc : ascii_decode (data.take 4) with
        | none => rfl
        | some tag =>
          by_cases hlen : data.length < 8 + beDec ((data.drop 4).take 4)
          · simp [hlen]
          · simp only [hlen, if_false]
            have hsl : ((data.drop 8).take (beDec ((data.drop 4).take 4))).length <
                data.length := by
              simp only [List.length_take, List.length_drop]
              omega
            have htl : (data.drop (8 + beDec ((data.drop 4).take 4))).length <
                data.length := by
              simp only [List.length_drop]
              omega
            have e1 : crDecodeStructF fuel ((data.drop 8).take (beDec ((data.drop 4).take 4))) =
                crDecodeStructF data.length ((data.drop 8).take (beDec ((data.drop 4).take 4))) := by
              rw [ih fuel (by omega) _ (by omega)]
              rw [ih data.length (by omega) _ (by omega)]
            have e2 : crDecodeStructF fuel (data.drop (8 + beDec ((data.drop 4).take 4))) =
                crDecodeStructF data.length (data.drop (8 + beDec ((data.drop 4).take 4))) := by
              rw [ih fuel (by omega) _ (by omega)]
              rw [ih data.length (by omega) _ (by omega)]
            rw [decodeValueAux_congr _ _ tag _ e1, e2]

/-- Python `decode_struct` of parse_serato_crates.py, with explicit fuel.
    Unlike crate_reader.py there is no bounds check: the tag slice
    `data[i:i+4]` may be short (Python slicing truncates), and
    `struct.unpack('>I', data[i+4:i+8])` raises `struct.error` (`none`)
    whenever fewer than 4 bytes remain for the length field. -/
def psDecodeStructF : Nat → List Nat → Option (List (String × TlvValue))
  | 0, _ => none
  | fuel + 1, data =>
    if data.length = 0 then some []
    else
      match ascii_decode (data.take 4) with
      | none => none
      | some tag =>
        if ((data.drop 4).take 4).length ≠ 4 then none
        else
          match decodeValueAux (psDecodeStructF fuel) tag
              ((data.drop 8).take (beDec ((data.drop 4).take 4))) with
          | none => none
          | some v =>
            match psDecodeStructF fuel (data.drop (8 + beDec ((data.drop 4).take 4))) with
            | none => none
            | some rest => some ((tag, v) :: rest)

/-- parse_serato_crates.py `decode_struct` (fuel instantiated). -/
def ps_decode_struct (data : List Nat) : Option (List (String × TlvValue)) :=
  psDecodeStructF (data.length + 1) data

/-- parse_serato_crates.py `decode(data, tag)` for a non-`None` tag. -/
def ps_decode (tag : String) (data : List Nat) : Option TlvValue :=
  decodeValueAux ps_decode_struct tag data

theorem psDecodeStructF_stable : ∀ fuel data, data.length < fuel →
    psDecodeStructF fuel data = ps_decode_struct data := by
  intro fuel
  induction fuel using Nat.strong_induction_on with
  | _ fuel ih =>
    intro data hlt
    match fuel, hlt with
    | fuel + 1, hlt =>
      unfold ps_decode_struct
      rw [psDecodeStructF]
      conv_rhs => rw [psDecodeStructF]
      by_cases h0 : data.length = 0
      · simp [h0]
      · simp only [h0, if_false]
        cases hasc : ascii_decode (data.take 4) with
        | none => rfl
        | some tag =>
          dsimp only
          by_cases hl4 : ((data.drop 4).take 4).length ≠ 4
          · rw [if_pos hl4]
            conv_rhs => rw [if_pos hl4]
          · rw [if_neg hl4]
            conv_rhs => rw [if_neg hl4]
            have hsl : ((data.drop 8).take (beDec ((data.drop 4).take 4))).length <
                data.length := by
              simp only [List.length_take, List.length_drop]
              omega
            have htl : (data.drop (8 + beDec ((data.drop 4).take 4))).length <
                data.length := by
              simp only [List.length_drop]
              omega
            have e1 : psDecodeStructF fuel ((data.drop 8).take (beDec ((data.drop 4).take 4))) =
                psDecodeStructF data.length ((data.drop 8).take (beDec ((data.drop 4).take 4))) := by
              rw [ih fuel (by omega) _ (by omega)]
              rw [ih data.length (by omega) _ (by omega)]
            have e2 : psDecodeStructF fuel (data.drop (8 + beDec ((data.drop 4).take 4))) =
                psDecodeStructF data.length (data.drop (8 + beDec ((data.drop 4).take 4))) := by
              rw [ih fuel (by omega) _ (by omega)]
              rw [ih data.length (by omega) _ (by omega)]
            rw [decodeValueAux_congr _ _ tag _ e1, e2]

/-! ### Crate encoder (parse_serato_crates.py) -/

/-- Encoding a value as UTF-16BE text: `value.encode('utf-16-be')`, which
    only succeeds when the value is a Python `str`. -/
def encAsText : TlvValue → Option (List Nat)
  | TlvValue.text s => some (utf16beEncodeCh s.data)
  | _ => none

/-- Returning a value unchanged, which only survives `result += value` /
    `len(value)` in the encoder when the value is `bytes`. -/
def encAsRaw : TlvValue → Option (List Nat)
  | TlvValue.raw bs => some bs
  | _ => none

/-- Encoding a value with `struct.pack('>I', value)`: requires an integer
    in `u32` range. -/
def encAsU32 : TlvValue → Option (List Nat)
  | TlvValue.uint n => if n < 4294967296 then some (be32enc n) else none
  | _ => none

mutual
/-- Python `encode_value(value, tag)` of parse_serato_crates.py.  The branch
    structure mirrors the source: exact tags `vrsn`/`sbav` first, then the
    first character of the tag; the final else returns the value unchanged,
    which only type-checks in Python when the value is `bytes` (any other
    type raises when concatenated or measured, hence `none`).  `tag[0]` of
    an empty tag raises IndexError (`none`). -/
def encode_value (tag : String) (v : TlvValue) : Option (List Nat) :=
  if tag = "vrsn" then encAsText v
  else if tag = "sbav" then encAsRaw v
  else if tag.data.head? = some 'o' then encAsContainer v
  else if tag.data.head? = some 't' then encAsText v
  else if tag.data.head? = some 'p' then encAsText v
  else if tag.data.head? = some 'u' then encAsU32 v
  else if tag.data.head? = some 'b' then encAsRaw v
  else if tag.data.head? = none then none
  else encAsRaw v
termination_by (sizeOf v, 1)

/-- Encoding a container value with `encode_struct` (only containers). -/
def encAsContainer : TlvValue → Option (List Nat)
  | TlvValue.container es => encode_struct es
  | _ => none
termination_by v => (sizeOf v, 0)

/-- Python `encode_struct(data)` of parse_serato_crates.py: for each entry
    emit `tag.encode('ascii')`, then `struct.pack('>I', len(encoded_value))`
    (raising, `none`, if the value is 2^32 bytes or longer), then the
    encoded value. -/
def encode_struct : List (String × TlvValue) → Option (List Nat)
  | [] => some []
  | (tag, v) :: rest =>
    match encode_value tag v with
    | none => none
    | some ev =>
      match ascii_encode tag with
      | none => none
      | some tb =>
        if ev.length < 4294967296 then
          match encode_struct rest with
          | none => none
          | some r => some (tb ++ be32enc ev.length ++ ev ++ r)
        else none
termination_by es => (sizeOf es, 2)
end

/-! ### Well-formed trees: the domain of the round-trip guarantee -/

/-- A tag whose classification is known to the codec's dispatch tables:
    an exact rule (`vrsn`, `sbav`) or a first-character rule
    (`o`, `t`, `p`, `u`, `b`).  Any other tag decodes with a `KeyError`. -/
def tagKnown (tag : String) : Bool :=
  tag = "vrsn" || tag = "sbav" ||
    tag.data.head? = some 'o' || tag.data.head? = some 't' ||
    tag.data.head? = some 'p' || tag.data.head? = some 'u' ||
    tag.data.head? = some 'b'

mutual
/-- Well-formedness of a value: containers must be well-formed throughout. -/
def wfValue : TlvValue → Bool
  | TlvValue.container es => wfEntries es
  | _ => true
termination_by v => sizeOf v

/-- Well-formedness of a tag/value list: every tag has exactly 4 characters
    and a known classification, recursively.  Together with success of
    `encode_struct` (which enforces ASCII tags, type-correct leaves and
    `u32`-sized lengths) this is what "built from valid typed leaves"
    means for the round-trip theorem. -/
def wfEntries : List (String × TlvValue) → Bool
  | [] => true
  | (tag, v) :: rest => (tag.length == 4) && tagKnown tag && wfValue v && wfEntries rest
termination_by es => sizeOf es
end

/-! ### Round-trip: decode ∘ encode = id on well-formed trees -/

theorem string_mk_data (s : String) : String.mk s.data = s := by
  cases s
  rfl

theorem ascii_encode_length (s : String) (bs : List Nat)
    (h : ascii_encode s = some bs) : bs.length = s.data.length := by
  unfold ascii_encode at h
  split at h
  · injection h with h
    rw [← h, List.length_map]
  · exact absurd h (by simp)

/-- Shape of one successful step of a structured decoder on an exactly
    encoded leading entry: both `decode_struct` variants read the 4-byte
    tag, the 4-byte length, the value slice, and continue after it. -/
def DecoderStep (D : List Nat → Option (List (String × TlvValue))) : Prop :=
  ∀ tb L ev restbuf tag, tb.length = 4 → ascii_decode tb = some tag →
    ev.length = L → L < 4294967296 →
    D (tb ++ (be32enc L ++ (ev ++ restbuf))) =
      match decodeValueAux D tag ev with
      | none => none
      | some v =>
        match D restbuf with
        | none => none
        | some rest => some ((tag, v) :: rest)

theorem crate_decode_struct_step : DecoderStep crate_decode_struct := by
  intro tb L ev restbuf tag htb hasc hev hL
  have hXlen : (tb ++ (be32enc L ++ (ev ++ restbuf))).length = 8 + L + restbuf.length := by
    simp [List.length_append, htb, be32enc_length, hev]
    omega
  have e_take : (tb ++ (be32enc L ++ (ev ++ restbuf))).take 4 = tb := List.take_left' htb
  have e_d4 : (tb ++ (be32enc L ++ (ev ++ restbuf))).drop 4 = be32enc L ++ (ev ++ restbuf) :=
    List.drop_left' htb
  have e_lf : ((tb ++ (be32enc L ++ (ev ++ restbuf))).drop 4).take 4 = be32enc L := by
    rw [e_d4]
    exact List.take_left' (be32enc_length L)
  have e_d8 : (tb ++ (be32enc L ++ (ev ++ restbuf))).drop 8 = ev ++ restbuf := by
    have : (8 : Nat) = 4 + 4 := rfl
    rw [this, ← List.drop_drop, e_d4]
    exact List.drop_left' (be32enc_length L)
  have e_sl : ((tb ++ (be32enc L ++ (ev ++ restbuf))).drop 8).take L = ev := by
    rw [e_d8]
    exact List.take_left' hev
  have e_tl : (tb ++ (be32enc L ++ (ev ++ restbuf))).drop (8 + L) = restbuf := by
    rw [← List.drop_drop, e_d8]
    exact List.drop_left' hev
  conv_lhs => rw [crate_decode_struct]
  rw [crDecodeStructF]
  rw [if_neg (by omega)]
  rw [e_take, hasc]
  dsimp only
  rw [e_lf, beDec_be32enc L hL]
  rw [if_neg (by omega)]
  rw [e_sl, e_tl]
  have hslen : ev.length < (tb ++ (be32enc L ++ (ev ++ restbuf))).length := by omega
  have htlen : restbuf.length < (tb ++ (be32enc L ++ (ev ++ restbuf))).length := by omega
  rw [decodeValueAux_congr _ _ tag _
    (crDecodeStructF_stable (tb ++ (be32enc L ++ (ev ++ restbuf))).length ev (by omega))]
  rw [crDecodeStructF_stable (tb ++ (be32enc L ++ (ev ++ restbuf))).length restbuf (by omega)]

theorem ps_decode_struct_step : DecoderStep ps_decode_struct := by
  intro tb L ev restbuf tag htb hasc hev hL
  have hXlen : (tb ++ (be32enc L ++ (ev ++ restbuf))).length = 8 + L + restbuf.length := by
    simp [List.length_append, htb, be32enc_length, hev]
    omega
  have e_take : (tb ++ (be32enc L ++ (ev ++ restbuf))).take 4 = tb := List.take_left' htb
  have e_d4 : (tb ++ (be32enc L ++ (ev ++ restbuf))).drop 4 = be32enc L ++ (ev ++ restbuf) :=
    List.drop_left' htb
  have e_lf : ((tb ++ (be32enc L ++ (ev ++ restbuf))).drop 4).take 4 = be32enc L := by
    rw [e_d4]
    exact List.take_left' (be32enc_length L)
  have e_d8 : (tb ++ (be32enc L ++ (ev ++ restbuf))).drop 8 = ev ++ restbuf := by
    have : (8 : Nat) = 4 + 4 := rfl
    rw [this, ← List.drop_drop, e_d4]
    exact List.drop_left' (be32enc_length L)
  have e_sl : ((tb ++ (be32enc L ++ (ev ++ restbuf))).drop 8).take L = ev := by
    rw [e_d8]
    exact List.take_left' hev
  have e_tl : (tb ++ (be32enc L ++ (ev ++ restbuf))).drop (8 + L) = restbuf := by
    rw [← List.drop_drop, e_d8]
    exact List.drop_left' hev
  conv_lhs => rw [ps_decode_struct]
  rw [psDecodeStructF]
  rw [if_neg (by omega)]
  rw [e_take, hasc]
  dsimp only
  rw [if_neg (by rw [e_lf]; simp [be32enc_length])]
  rw [e_lf, beDec_be32enc L hL]
  rw [e_sl, e_tl]
  rw [decodeValueAux_congr _ _ tag _
    (psDecodeStructF_stable (tb ++ (be32enc L ++ (ev ++ restbuf))).length ev (by omega))]
  rw [psDecodeStructF_stable (tb ++ (be32enc L ++ (ev ++ restbuf))).length restbuf (by omega)]

theorem crate_decode_struct_short (g : List Nat) (hg : g.length < 8) :
    crate_decode_struct g = some [] := by
  conv_lhs => rw [crate_decode_struct]
  rw [crDecodeStructF]
  rw [if_pos hg]

theorem ps_decode_struct_nil : ps_decode_struct [] = some [] := rfl


theorem decode_unicode_encode (s : String) :
    decode_unicode (utf16beEncodeCh s.data) = some s := by
  unfold decode_unicode
  rw [utf16be_roundtrip s.data]
  simp [string_mk_data]

mutual
/-- Generic: decoding an exactly encoded well-formed leaf value (by the
    same tag) recovers the value, for any structured decoder `D` with the
    step behaviour of the codec. -/
theorem gen_decode_encode_value (D : List Nat → Option (List (String × TlvValue)))
    (Stop : List Nat → Prop) (hstep : DecoderStep D)
    (hstop : ∀ g, Stop g → D g = some []) (hnil : Stop [])
    (v : TlvValue) (tag : String) (bs : List Nat)
    (hk : tagKnown tag = true) (hwf : wfValue v = true)
    (henc : encode_value tag v = some bs) :
    decodeValueAux D tag bs = some v := by
  simp only [tagKnown, Bool.or_eq_true, decide_eq_true_eq] at hk
  rw [encode_value] at henc
  unfold decodeValueAux
  rcases hk with ((((((h | h) | h) | h) | h) | h) | h)
  · -- vrsn : text
    rw [if_pos h] at henc ⊢
    cases v with
    | text s =>
      simp only [encAsText] at henc
      have hbs : bs = utf16beEncodeCh s.data := by
        injection henc with h2; exact h2.symm
      subst hbs
      rw [decode_unicode_encode s]
      rfl
    | uint n => exact absurd henc (by simp [encAsText, encAsRaw, encAsU32, encAsContainer])
    | raw rb => exact absurd henc (by simp [encAsText, encAsRaw, encAsU32, encAsContainer])
    | container es => exact absurd henc (by simp [encAsText, encAsRaw, encAsU32, encAsContainer])
  · -- sbav : raw passthrough
    have hne : tag ≠ "vrsn" := by
      intro hh; rw [hh] at h; exact absurd h (by decide)
    rw [if_neg hne, if_pos h] at henc ⊢
    cases v with
    | text s => exact absurd henc (by simp [encAsText, encAsRaw, encAsU32, encAsContainer])
    | uint n => exact absurd henc (by simp [encAsText, encAsRaw, encAsU32, encAsContainer])
    | raw rb =>
      simp only [encAsRaw] at henc
      have hbs : bs = rb := by
        injection henc with h2; exact h2.symm
      subst hbs
      rfl
    | container es => exact absurd henc (by simp [encAsText, encAsRaw, encAsU32, encAsContainer])
  · -- first char 'o' : container
    have hne1 : tag ≠ "vrsn" := by
      intro hh; rw [hh] at h; exact absurd h (by decide)
    have hne2 : tag ≠ "sbav" := by
      intro hh; rw [hh] at h; exact absurd h (by decide)
    rw [if_neg hne1, if_neg hne2, if_pos h] at henc ⊢
    cases v with
    | text s => exact absurd henc (by simp [encAsText, encAsRaw, encAsU32, encAsContainer])
    | uint n => exact absurd henc (by simp [encAsText, encAsRaw, encAsU32, encAsContainer])
    | raw rb => exact absurd henc (by simp [encAsText, encAsRaw, encAsU32, encAsContainer])
    | container es =>
      simp only [encAsContainer] at henc
      have hes : encode_struct es = some bs := henc
      have hwfes : wfEntries es = true := by
        rw [wfValue] at hwf
        exact hwf
      have hd : D (bs ++ []) = some es :=
        gen_decode_encode_struct D Stop hstep hstop hnil es bs [] hwfes hes hnil
      rw [List.append_nil] at hd
      rw [hd]
      rfl
  · -- first char 't' : text
    have hne1 : tag ≠ "vrsn" := by
      intro hh; rw [hh] at h; exact absurd h (by decide)
    have hne2 : tag ≠ "sbav" := by
      intro hh; rw [hh] at h; exact absurd h (by decide)
    have hneo : ¬tag.data.head? = some 'o' := by
      rw [h]; decide
    rw [if_neg hne1, if_neg hne2, if_neg hneo, if_pos h] at henc ⊢
    cases v with
    | text s =>
      simp only [encAsText] at henc
      have hbs : bs = utf16beEncodeCh s.data := by
        injection henc with h2; exact h2.symm
      subst hbs
      rw [decode_unicode_encode s]
      rfl
    | uint n => exact absurd henc (by simp [encAsText, encAsRaw, encAsU32, encAsContainer])
    | raw rb => exact absurd henc (by simp [encAsText, encAsRaw, encAsU32, encAsContainer])
    | container es => exact absurd henc (by simp [encAsText, encAsRaw, encAsU32, encAsContainer])
  · -- first char 'p' : text
    have hne1 : tag ≠ "vrsn" := by
      intro hh; rw [hh] at h; exact absurd h (by decide)
    have hne2 : tag ≠ "sbav" := by
      intro hh; rw [hh] at h; exact absurd h (by decide)
    have hneo : ¬tag.data.head? = some 'o' := by
      rw [h]; decide
    have hnet : ¬tag.data.head? = some 't' := by
      rw [h]; decide
    rw [if_neg hne1, if_neg hne2, if_neg hneo, if_neg hnet, if_pos h] at henc ⊢
    cases v with
    | text s =>
      simp only [encAsText] at henc
      have hbs : bs = utf16beEncodeCh s.data := by
        injection henc with h2; exact h2.symm
      subst hbs
      rw [decode_unicode_encode s]
      rfl
    | uint n => exact absurd henc (by simp [encAsText, encAsRaw, encAsU32, encAsContainer])
    | raw rb => exact absurd henc (by simp [encAsText, encAsRaw, encAsU32, encAsContainer])
    | container es => exact absurd henc (by simp [encAsText, encAsRaw, encAsU32, encAsContainer])
  · -- first char 'u' : unsigned u32
    have hne1 : tag ≠ "vrsn" := by
      intro hh; rw [hh] at h; exact absurd h (by decide)
    have hne2 : tag ≠ "sbav" := by
      intro hh; rw [hh] at h; exact absurd h (by decide)
    have hneo : ¬tag.data.head? = some 'o' := by
      rw [h]; decide
    have hnet : ¬tag.data.head? = some 't' := by
      rw [h]; decide
    have hnep : ¬tag.data.head? = some 'p' := by
      rw [h]; decide
    rw [if_neg hne1, if_neg hne2, if_neg hneo, if_neg hnet, if_neg hnep, if_pos h] at henc ⊢
    cases v with
    | text s => exact absurd henc (by simp [encAsText, encAsRaw, encAsU32, encAsContainer])
    | uint n =>
      simp only [encAsU32] at henc
      have hn : n < 4294967296 := by
        by_contra hn
        rw [if_neg hn] at henc
        exact absurd henc (by simp [encAsText, encAsRaw, encAsU32, encAsContainer])
      rw [if_pos hn] at henc
      have hbs : bs = be32enc n := by
        injection henc with h2; exact h2.symm
      subst hbs
      unfold decode_unsigned
      rw [if_pos (be32enc_length n), beDec_be32enc n hn]
      rfl
    | raw rb => exact absurd henc (by simp [encAsText, encAsRaw, encAsU32, encAsContainer])
    | container es => exact absurd henc (by simp [encAsText, encAsRaw, encAsU32, encAsContainer])
  · -- first char 'b' : raw passthrough
    have hne1 : tag ≠ "vrsn" := by
      intro hh; rw [hh] at h; exact absurd h (by decide)
    have hne2 : tag ≠ "sbav" := by
      intro hh; rw [hh] at h; exact absurd h (by decide)
    have hneo : ¬tag.data.head? = some 'o' := by
      rw [h]; decide
    have hnet : ¬tag.data.head? = some 't' := by
      rw [h]; decide
    have hnep : ¬tag.data.head? = some 'p' := by
      rw [h]; decide
    have hneu : ¬tag.data.head? = some 'u' := by
      rw [h]; decide
    rw [if_neg hne1, if_neg hne2, if_neg hneo, if_neg hnet, if_neg hnep, if_neg hneu,
      if_pos h] at henc ⊢
    cases v with
    | text s => exact absurd henc (by simp [encAsText, encAsRaw, encAsU32, encAsContainer])
    | uint n => exact absurd henc (by simp [encAsText, encAsRaw, encAsU32, encAsContainer])
    | raw rb =>
      simp only [encAsRaw] at henc
      have hbs : bs = rb := by
        injection henc with h2; exact h2.symm
      subst hbs
      rfl
    | container es => exact absurd henc (by simp [encAsText, encAsRaw, encAsU32, encAsContainer])
termination_by sizeOf v

/-- Generic: decoding an exactly encoded well-formed entry list followed by
    a stopping tail recovers the entry list, for any structured decoder `D`
    with the step behaviour of the codec. -/
theorem gen_decode_encode_struct (D : List Nat → Option (List (String × TlvValue)))
    (Stop : List Nat → Prop) (hstep : DecoderStep D)
    (hstop : ∀ g, Stop g → D g = some []) (hnil : Stop [])
    (es : List (String × TlvValue)) (bs g : List Nat)
    (hwf : wfEntries es = true) (henc : encode_struct es = some bs) (hg : Stop g) :
    D (bs ++ g) = some es := by
  match es with
  | [] =>
    have hbs : bs = [] := by
      rw [encode_struct] at henc
      injection henc with h2
      exact h2.symm
    subst hbs
    rw [List.nil_append]
    exact hstop g hg
  | (tag, v) :: rest =>
    rw [wfEntries] at hwf
    simp only [Bool.and_eq_true, beq_iff_eq] at hwf
    obtain ⟨⟨⟨hlen4, hk⟩, hwfv⟩, hwfrest⟩ := hwf
    rw [encode_struct] at henc
    cases hev : encode_value tag v with
    | none => rw [hev] at henc; exact absurd henc (by simp [encAsText, encAsRaw, encAsU32, encAsContainer])
    | some ev =>
      rw [hev] at henc
      cases hasc : ascii_encode tag with
      | none => rw [hasc] at henc; exact absurd henc (by simp [encAsText, encAsRaw, encAsU32, encAsContainer])
      | some tb =>
        rw [hasc] at henc
        dsimp only at henc
        split at henc
        case isFalse => exact absurd henc (by simp [encAsText, encAsRaw, encAsU32, encAsContainer])
        case isTrue hL =>
          cases hrest : encode_struct rest with
          | none => rw [hrest] at henc; exact absurd henc (by simp [encAsText, encAsRaw, encAsU32, encAsContainer])
          | some r =>
            rw [hrest] at henc
            have hbs : bs = tb ++ be32enc ev.length ++ ev ++ r := by
              injection henc with h2
              exact h2.symm
            subst hbs
            have htb4 : tb.length = 4 := by
              rw [ascii_encode_length tag tb hasc]
              exact hlen4
            have hX : (tb ++ be32enc ev.length ++ ev ++ r) ++ g =
                tb ++ (be32enc ev.length ++ (ev ++ (r ++ g))) := by
              simp [List.append_assoc]
            rw [hX]
            rw [hstep tb ev.length ev (r ++ g) tag htb4 (ascii_roundtrip tag tb hasc) rfl hL]
            rw [gen_decode_encode_value D Stop hstep hstop hnil v tag ev hk hwfv hev]
            rw [gen_decode_encode_struct D Stop hstep hstop hnil rest r g hwfrest hrest hg]
termination_by sizeOf es
end

/-- parse_serato_crates.py round-trip instance: decoding an exact encode
    recovers the tree. -/
theorem ps_decode_encode_struct (es : List (String × TlvValue)) (bs : List Nat)
    (hwf : wfEntries es = true) (henc : encode_struct es = some bs) :
    ps_decode_struct bs = some es := by
  have h := gen_decode_encode_struct ps_decode_struct (fun g => g = [])
    ps_decode_struct_step (fun g hg => by rw [hg]; exact ps_decode_struct_nil) rfl
    es bs [] hwf henc rfl
  rwa [List.append_nil] at h

/-- crate_reader.py round-trip instance, tolerating up to 7 bytes of
    trailing garbage. -/
theorem crate_decode_encode_struct (es : List (String × TlvValue)) (bs g : List Nat)
    (hwf : wfEntries es = true) (henc : encode_struct es = some bs) (hg : g.length < 8) :
    crate_decode_struct (bs ++ g) = some es :=
  gen_decode_encode_struct crate_decode_struct (fun g => g.length < 8)
    crate_decode_struct_step (fun g hg => crate_decode_struct_short g hg) (by simp)
    es bs g hwf henc hg

/-! ### Claim C1: crate codec round-trip -/

/-- C1: for every TlvTree built from valid typed leaves (well-formed
    entries), decoding the bytes produced by `encode_struct` yields a
    structurally equal tree, child order included; and for every byte buffer
    produced by a prior `encode_struct`, encoding its decode reproduces the
    buffer byte-for-byte. -/
theorem claim_C1_crate_roundtrip (es : List (String × TlvValue)) (bs : List Nat)
    (hwf : wfEntries es = true) (henc : encode_struct es = some bs) :
    ps_decode_struct bs = some es ∧
    ∀ es', ps_decode_struct bs = some es' → encode_struct es' = some bs := by
  have hd : ps_decode_struct bs = some es := ps_decode_encode_struct es bs hwf henc
  refine ⟨hd, ?_⟩
  intro es' hd'
  have : es' = es := by
    rw [hd] at hd'
    injection hd' with h
    exact h.symm
  rw [this]
  exact henc

/-- Concrete well-formed tree used as the round-trip witness. -/
def c1Tree : List (String × TlvValue) :=
  [("osrt", TlvValue.container [("tvcn", TlvValue.text "song")]),
   ("uadd", TlvValue.uint 5),
   ("sbav", TlvValue.raw [2])]

/-- Bytes of `c1Tree` under `encode_struct`. -/
def c1Bytes : List Nat :=
  [111, 115, 114, 116, 0, 0, 0, 16, 116, 118, 99, 110, 0, 0, 0, 8,
   0, 115, 0, 111, 0, 110, 0, 103,
   117, 97, 100, 100, 0, 0, 0, 4, 0, 0, 0, 5,
   115, 98, 97, 118, 0, 0, 0, 1, 2]

theorem claim_C1_crate_roundtrip_witness :
    wfEntries c1Tree = true ∧ encode_struct c1Tree = some c1Bytes ∧
    (ps_decode_struct c1Bytes = some c1Tree ∧
      ∀ es', ps_decode_struct c1Bytes = some es' → encode_struct es' = some c1Bytes) := by
  have h1 : wfEntries c1Tree = true := by
    simp only [c1Tree, wfEntries, wfValue, tagKnown]
    decide
  have h2 : encode_struct c1Tree = some c1Bytes := by
    simp [c1Tree, c1Bytes, encode_struct, encode_value, encAsText, encAsRaw, encAsU32,
      encAsContainer, ascii_encode, utf16beEncodeCh, unitsOfChars, bytesOfUnitsBE, be32enc]
  exact ⟨h1, h2, claim_C1_crate_roundtrip c1Tree c1Bytes h1 h2⟩

/-! ### Claim C2: truncation behaviour of the two decode_struct variants -/

/-- C2 counterexample: on a buffer holding one complete entry followed by a
    single trailing byte (fewer than 8 bytes remaining), the
    parse_serato_crates.py `decode_struct` raises `struct.error` (modelled
    `none`), discarding the fully-parsed entry, while the crate_reader.py
    variant returns it.  The claim, quantified over both cited decoders,
    is therefore false. -/
theorem claim_C2_counterexample :
    ps_decode_struct [117, 97, 97, 97, 0, 0, 0, 4, 0, 0, 0, 7, 0] = none ∧
    crate_decode_struct [117, 97, 97, 97, 0, 0, 0, 4, 0, 0, 0, 7, 0] =
      some [("uaaa", TlvValue.uint 7)] :=
  ⟨rfl, rfl⟩

/-- C2 amended: the stop-on-truncation behaviour holds for the
    bounds-checked `decode_struct` of crate_reader.py: appending fewer than
    8 bytes of trailing garbage to any validly encoded buffer decodes to
    exactly the encoded entries, none discarded and no error.
    (parse_serato_crates.py's variant instead raises when 1 to 7 bytes
    remain.) -/
theorem claim_C2_truncation (es : List (String × TlvValue)) (bs g : List Nat)
    (hwf : wfEntries es = true) (henc : encode_struct es = some bs)
    (hg : g.length < 8) :
    crate_decode_struct (bs ++ g) = some es :=
  crate_decode_encode_struct es bs g hwf henc hg

theorem claim_C2_truncation_witness :
    wfEntries [("uaaa", TlvValue.uint 7)] = true ∧
    encode_struct [("uaaa", TlvValue.uint 7)] = some [117, 97, 97, 97, 0, 0, 0, 4, 0, 0, 0, 7] ∧
    ([(0 : Nat)].length < 8) ∧
    crate_decode_struct ([117, 97, 97, 97, 0, 0, 0, 4, 0, 0, 0, 7] ++ [0]) =
      some [("uaaa", TlvValue.uint 7)] := by
  have h1 : wfEntries [("uaaa", TlvValue.uint 7)] = true := by
    simp only [wfEntries, wfValue, tagKnown]
    decide
  have h2 : encode_struct [("uaaa", TlvValue.uint 7)] =
      some [117, 97, 97, 97, 0, 0, 0, 4, 0, 0, 0, 7] := by
    simp [encode_struct, encode_value, encAsU32, ascii_encode, be32enc]
  exact ⟨h1, h2, by decide,
    claim_C2_truncation [("uaaa", TlvValue.uint 7)] _ [0] h1 h2 (by decide)⟩

/-! ### Claim C3: unknown-tag handling -/

/-- C3 counterexample: a container holding one leaf tagged `zzzz` encodes
    (the encoder's final else is raw passthrough), but decoding those bytes
    raises `KeyError` (`none`) because `zzzz` matches no exact rule and `z`
    matches no first-character rule; the decoded value is not the raw bytes
    and the round trip fails. -/
theorem claim_C3_counterexample :
    encode_struct [("zzzz", TlvValue.raw [1, 2, 3])] =
      some [122, 122, 122, 122, 0, 0, 0, 3, 1, 2, 3] ∧
    crate_decode_struct [122, 122, 122, 122, 0, 0, 0, 3, 1, 2, 3] = none ∧
    ps_decode_struct [122, 122, 122, 122, 0, 0, 0, 3, 1, 2, 3] = none := by
  refine ⟨?_, rfl, rfl⟩
  simp [encode_struct, encode_value, encAsRaw, ascii_encode, be32enc]

/-- C3 amended: unknown tags are raw passthrough on the encode side only:
    `encode_value` emits the raw bytes unchanged for a tag matching no
    rule, but `decode` (both scripts) raises `KeyError` on such a tag, so
    decode does not return the raw bytes and a container holding such a
    leaf does not round-trip. -/
theorem claim_C3_unknown_tag (bs : List Nat) :
    encode_value "zzzz" (TlvValue.raw bs) = some bs ∧
    crate_decode "zzzz" bs = none ∧
    ps_decode "zzzz" bs = none := by
  refine ⟨?_, rfl, rfl⟩
  simp [encode_value, encAsRaw]

/-! ### Claim C6: concrete ptrk decode scenario -/

/-- C6 counterexample: with the length field 16 dictated by the claim (the
    UTF-16BE encoding of "/music/a.mp3" is in fact 24 bytes long), decoding
    yields the 8-character path "/music/a", not "/music/a.mp3". -/
theorem claim_C6_counterexample :
    crate_decode_struct
      [112, 116, 114, 107, 0, 0, 0, 16,
       0, 47, 0, 109, 0, 117, 0, 115, 0, 105, 0, 99, 0, 47, 0, 97,
       0, 46, 0, 109, 0, 112, 0, 51] =
      some [("ptrk", TlvValue.text "/music/a")] ∧
    ("/music/a" : String) ≠ "/music/a.mp3" :=
  ⟨rfl, by decide⟩

/-- C6 amended: with the length field 24 (the actual byte length of the
    UTF-16BE encoding of "/music/a.mp3"), decoding the buffer
    `b"ptrk" + (24 be32) + "/music/a.mp3" utf-16-be` yields the
    single-entry container [("ptrk", "/music/a.mp3")]. -/
theorem claim_C6_ptrk_scenario :
    crate_decode_struct
      [112, 116, 114, 107, 0, 0, 0, 24,
       0, 47, 0, 109, 0, 117, 0, 115, 0, 105, 0, 99, 0, 47, 0, 97,
       0, 46, 0, 109, 0, 112, 0, 51] =
      some [("ptrk", TlvValue.text "/music/a.mp3")] :=
  rfl

/-! ### Claim C10: termination of the crate decoder -/

/-- C10: the crate decoder terminates on every byte buffer, well-formed or
    not: any fuel beyond the buffer length gives the same (always defined)
    result as the canonical instantiation, for both decode_struct variants.
    Each loop step consumes at least 8 bytes and every recursive decode
    call works on a strictly shorter slice, so fuel linear in the length
    suffices. -/
theorem claim_C10_termination :
    (∀ data fuel, data.length < fuel →
      crDecodeStructF fuel data = crate_decode_struct data) ∧
    (∀ data fuel, data.length < fuel →
      psDecodeStructF fuel data = ps_decode_struct data) :=
  ⟨fun data fuel h => crDecodeStructF_stable fuel data h,
   fun data fuel h => psDecodeStructF_stable fuel data h⟩

theorem claim_C10_termination_witness :
    ([117, 97, 97, 97, 0, 0, 0, 4, 0, 0, 0, 7].length < 100) ∧
    crDecodeStructF 100 [117, 97, 97, 97, 0, 0, 0, 4, 0, 0, 0, 7] =
      crate_decode_struct [117, 97, 97, 97, 0, 0, 0, 4, 0, 0, 0, 7] ∧
    psDecodeStructF 100 [117, 97, 97, 97, 0, 0, 0, 4, 0, 0, 0, 7] =
      ps_decode_struct [117, 97, 97, 97, 0, 0, 0, 4, 0, 0, 0, 7] :=
  ⟨by decide,
   claim_C10_termination.1 [117, 97, 97, 97, 0, 0, 0, 4, 0, 0, 0, 7] 100 (by decide),
   claim_C10_termination.2 [117, 97, 97, 97, 0, 0, 0, 4, 0, 0, 0, 7] 100 (by decide)⟩

/-! ### serato_monitor.py decode_string: heuristic string decoding -/

/-- Python strict `bytes.decode('utf-8')`: lead bytes C2–F4, continuation
    bytes 80–BF, overlong encodings, surrogates and code points beyond
    U+10FFFF all rejected. -/
def utf8Decode : List Nat → Option (List Char)
  | [] => some []
  | b :: rest =>
    if b < 128 then (utf8Decode rest).map (fun l => Char.ofNat b :: l)
    else if b < 194 then none
    else if b < 224 then
      match rest with
      | c1 :: r2 =>
        if 128 ≤ c1 ∧ c1 < 192 then
          (utf8Decode r2).map (fun l => Char.ofNat ((b - 192) * 64 + (c1 - 128)) :: l)
        else none
      | [] => none
    else if b < 240 then
      match rest with
      | c1 :: c2 :: r3 =>
        if (128 ≤ c1 ∧ c1 < 192) ∧ (128 ≤ c2 ∧ c2 < 192) then
          if (b - 224) * 4096 + (c1 - 128) * 64 + (c2 - 128) < 2048 ∨
              (55296 ≤ (b - 224) * 4096 + (c1 - 128) * 64 + (c2 - 128) ∧
                (b - 224) * 4096 + (c1 - 128) * 64 + (c2 - 128) < 57344) then none
          else (utf8Decode r3).map (fun l =>
            Char.ofNat ((b - 224) * 4096 + (c1 - 128) * 64 + (c2 - 128)) :: l)
        else none
      | _ => none
    else if b < 245 then
      match rest with
      | c1 :: c2 :: c3 :: r4 =>
        if (128 ≤ c1 ∧ c1 < 192) ∧ (128 ≤ c2 ∧ c2 < 192) ∧ (128 ≤ c3 ∧ c3 < 192) then
          if (b - 240) * 262144 + (c1 - 128) * 4096 + (c2 - 128) * 64 + (c3 - 128) < 65536 ∨
              1114112 ≤ (b - 240) * 262144 + (c1 - 128) * 4096 + (c2 - 128) * 64 + (c3 - 128) then
            none
          else (utf8Decode r4).map (fun l =>
            Char.ofNat ((b - 240) * 262144 + (c1 - 128) * 4096 + (c2 - 128) * 64 + (c3 - 128)) :: l)
        else none
      | _ => none
    else none

/-- Number of zero bytes at (even, odd) offsets of a byte string. -/
def nullCounts : List Nat → Nat × Nat
  | [] => (0, 0)
  | b :: rest => ((if b = 0 then 1 else 0) + (nullCounts rest).2, (nullCounts rest).1)

/-- Zero bytes at even offsets: `sum(1 for b in bytes_val[0::2] if b == 0)`. -/
def evenNulls (bs : List Nat) : Nat := (nullCounts bs).1

/-- Zero bytes at odd offsets: `sum(1 for b in bytes_val[1::2] if b == 0)`. -/
def oddNulls (bs : List Nat) : Nat := (nullCounts bs).2

/-- Python `str.strip(chars)`: remove leading and trailing characters in
    the given class. -/
def pyStripChars (p : Char → Bool) (l : List Char) : List Char :=
  ((l.dropWhile p).reverse.dropWhile p).reverse

/-- The character class of `str.strip('﻿\x00')`. -/
def isBomNull (c : Char) : Bool := c == Char.ofNat 65279 || c == Char.ofNat 0

/-- Python's `str.isspace` character class (the class stripped by a bare
    `str.strip()`). -/
def isPySpace (c : Char) : Bool :=
  [9, 10, 11, 12, 13, 28, 29, 30, 31, 32, 133, 160, 5760,
   8192, 8193, 8194, 8195, 8196, 8197, 8198, 8199, 8200, 8201, 8202,
   8232, 8233, 8239, 8287, 12288].contains c.toNat

/-- Bare Python `str.strip()`. -/
def pyStrip (l : List Char) : List Char := pyStripChars isPySpace l

/-- Lowercase hex digit. -/
def hexDigit (n : Nat) : Char := Char.ofNat (if n < 10 then 48 + n else 87 + n)

/-- Python `bytes.hex()`: two lowercase hex digits per byte. -/
def bytesHex : List Nat → List Char
  | [] => []
  | b :: rest => hexDigit (b / 16) :: hexDigit (b % 16) :: bytesHex rest

/-- The NUL character. -/
def nullChar : Char := Char.ofNat 0

/-- Python `decode_string` of serato_monitor.py.  Empty input gives "";
    a UTF-16 BOM selects the matching strict UTF-16 decode with BOM/NUL
    stripping (uncaught exceptions there are `none`); otherwise the
    null-byte heuristic tries UTF-16BE then UTF-16LE (only for buffers
    longer than 2 bytes, threshold `nulls/(length/2) > 0.4`, i.e.
    `5*nulls > length`), then UTF-8 after removing NULs, then UTF-16BE as
    a last resort, and finally the lowercase hex of the raw bytes. -/
def sm_decode_string (bs : List Nat) : Option String :=
  if bs = [] then some "" else
  if bs.take 2 = [254, 255] then
    (utf16beDecodeCh bs).map (fun l => String.mk (pyStripChars isBomNull l))
  else if bs.take 2 = [255, 254] then
    (utf16leDecodeCh bs).map (fun l => String.mk (pyStripChars isBomNull l))
  else
    match (if 2 < bs.length ∧ 5 * evenNulls bs > bs.length then utf16beDecodeCh bs else none) with
    | some l => some (String.mk (pyStrip (l.filter (fun c => c != nullChar))))
    | none =>
      match (if 2 < bs.length ∧ 5 * oddNulls bs > bs.length then utf16leDecodeCh bs else none) with
      | some l => some (String.mk (pyStrip (l.filter (fun c => c != nullChar))))
      | none =>
        match utf8Decode (bs.filter (fun b => b != 0)) with
        | some l => some (String.mk (pyStrip l))
        | none =>
          match utf16beDecodeCh bs with
          | some l => some (String.mk l)
          | none => some (String.mk (bytesHex bs))

/-- Modelled from the spec's words in section 4.2 / the claim text: the
    ordered decision procedure (a)–(f) exactly as stated, in particular
    with no lower bound on the buffer length in step (c): any buffer whose
    even/odd null fraction exceeds 0.4 of half-length is decoded as UTF-16
    of the corresponding endianness. -/
def decode_heuristic_spec (bs : List Nat) : Option String :=
  if bs = [] then some "" else
  if bs.take 2 = [254, 255] then
    (utf16beDecodeCh bs).map (fun l => String.mk (pyStripChars isBomNull l))
  else if bs.take 2 = [255, 254] then
    (utf16leDecodeCh bs).map (fun l => String.mk (pyStripChars isBomNull l))
  else
    match (if 5 * evenNulls bs > bs.length then utf16beDecodeCh bs else none) with
    | some l => some (String.mk (pyStrip (l.filter (fun c => c != nullChar))))
    | none =>
      match (if 5 * oddNulls bs > bs.length then utf16leDecodeCh bs else none) with
      | some l => some (String.mk (pyStrip (l.filter (fun c => c != nullChar))))
      | none =>
        match utf8Decode (bs.filter (fun b => b != 0)) with
        | some l => some (String.mk (pyStrip l))
        | none =>
          match utf16beDecodeCh bs with
          | some l => some (String.mk l)
          | none => some (String.mk (bytesHex bs))

/-- The spec procedure amended with the source's `length > 2` guard on the
    null-fraction step (c). -/
def decode_heuristic_spec_amended (bs : List Nat) : Option String :=
  if bs = [] then some "" else
  if bs.take 2 = [254, 255] then
    (utf16beDecodeCh bs).map (fun l => String.mk (pyStripChars isBomNull l))
  else if bs.take 2 = [255, 254] then
    (utf16leDecodeCh bs).map (fun l => String.mk (pyStripChars isBomNull l))
  else
    match (if 2 < bs.length ∧ 5 * evenNulls bs > bs.length then utf16beDecodeCh bs else none) with
    | some l => some (String.mk (pyStrip (l.filter (fun c => c != nullChar))))
    | none =>
      match (if 2 < bs.length ∧ 5 * oddNulls bs > bs.length then utf16leDecodeCh bs else none) with
      | some l => some (String.mk (pyStrip (l.filter (fun c => c != nullChar))))
      | none =>
        match utf8Decode (bs.filter (fun b => b != 0)) with
        | some l => some (String.mk (pyStrip l))
        | none =>
          match utf16beDecodeCh bs with
          | some l => some (String.mk l)
          | none => some (String.mk (bytesHex bs))

/-! ### Claim C4: the ordered decision procedure of decode_string -/

/-- C4 counterexample: the claimed procedure omits the source's
    `length > 2` guard on the null-fraction step.  On the 2-byte input
    `e9 00` the claimed procedure sees an odd-offset null fraction of 1 and
    decodes UTF-16LE to "é", while `decode_string` skips the heuristic,
    fails UTF-8 and falls back to UTF-16BE, yielding U+E900. -/
theorem claim_C4_counterexample :
    sm_decode_string [233, 0] ≠ decode_heuristic_spec [233, 0] ∧
    decode_heuristic_spec [233, 0] = some "é" ∧
    sm_decode_string [233, 0] = some (String.mk [Char.ofNat 59648]) :=
  ⟨by decide, rfl, rfl⟩

/-- C4 amended: `decode_string` follows exactly the claimed ordered
    decision procedure once step (c) is restricted to buffers longer than
    2 bytes; and the two concrete examples hold: UTF-16BE-with-BOM "ABC"
    decodes to "ABC", and plain ASCII "ABC" decodes to "ABC" via the UTF-8
    fallback path. -/
theorem claim_C4_heuristic_decode :
    (∀ bs, sm_decode_string bs = decode_heuristic_spec_amended bs) ∧
    sm_decode_string [254, 255, 0, 65, 0, 66, 0, 67] = some "ABC" ∧
    sm_decode_string [65, 66, 67] = some "ABC" :=
  ⟨fun _ => rfl, rfl, rfl⟩

/-! ### Claim C5: totality and hex fallback of decode_string -/

/-- C5 counterexample: `decode_string` is not total.  On input
    `fe ff 41` (a UTF-16BE BOM followed by a single byte) the BOM branch
    calls `bytes_val.decode('utf-16-be')` outside any try block; the strict
    decode of an odd-length buffer raises UnicodeDecodeError, so the
    function raises (`none`) instead of returning a string. -/
theorem claim_C5_counterexample :
    sm_decode_string [254, 255, 65] = none := rfl

/-- C5 amended: outside the two unguarded BOM branches, `decode_string` is
    total (always returns a string), and when every decode strategy fails
    (UTF-16BE and UTF-16LE fail on the raw bytes, UTF-8 fails after NUL
    removal) it returns the lowercase hex representation of the raw
    bytes. -/
theorem claim_C5_total_hex_fallback :
    (∀ bs : List Nat, ¬(bs.take 2 = [254, 255] ∨ bs.take 2 = [255, 254]) →
      (sm_decode_string bs).isSome = true) ∧
    (∀ bs : List Nat, ¬(bs.take 2 = [254, 255] ∨ bs.take 2 = [255, 254]) →
      utf16beDecodeCh bs = none → utf16leDecodeCh bs = none →
      utf8Decode (bs.filter (fun b => b != 0)) = none →
      sm_decode_string bs = some (String.mk (bytesHex bs))) := by
  constructor
  · intro bs h
    obtain ⟨h1, h2⟩ := not_or.mp h
    unfold sm_decode_string
    by_cases h0 : bs = []
    · simp [h0]
    · rw [if_neg h0, if_neg h1, if_neg h2]
      cases hbe : (if 2 < bs.length ∧ 5 * evenNulls bs > bs.length
          then utf16beDecodeCh bs else none) with
      | some l => simp
      | none =>
        cases hle : (if 2 < bs.length ∧ 5 * oddNulls bs > bs.length
            then utf16leDecodeCh bs else none) with
        | some l => simp
        | none =>
          cases h8 : utf8Decode (bs.filter (fun b => b != 0)) with
          | some l => simp
          | none =>
            cases hbe2 : utf16beDecodeCh bs with
            | some l => simp
            | none => simp
  · intro bs h hbe hle h8
    obtain ⟨h1, h2⟩ := not_or.mp h
    have h0 : bs ≠ [] := by
      intro he
      rw [he] at hbe
      exact absurd hbe (by decide)
    unfold sm_decode_string
    rw [if_neg h0, if_neg h1, if_neg h2]
    have e1 : (if 2 < bs.length ∧ 5 * evenNulls bs > bs.length
        then utf16beDecodeCh bs else none) = none := by
      split
      · exact hbe
      · rfl
    have e2 : (if 2 < bs.length ∧ 5 * oddNulls bs > bs.length
        then utf16leDecodeCh bs else none) = none := by
      split
      · exact hle
      · rfl
    simp only [e1, e2, h8, hbe, ite_self]

theorem claim_C5_total_hex_fallback_witness :
    (¬([65, 66].take 2 = [254, 255] ∨ [65, 66].take 2 = [255, 254]) ∧
      (sm_decode_string [65, 66]).isSome = true) ∧
    (¬([216, 0, 255].take 2 = [254, 255] ∨ [216, 0, 255].take 2 = [255, 254]) ∧
      utf16beDecodeCh [216, 0, 255] = none ∧ utf16leDecodeCh [216, 0, 255] = none ∧
      utf8Decode ([216, 0, 255].filter (fun b => b != 0)) = none ∧
      sm_decode_string [216, 0, 255] = some (String.mk (bytesHex [216, 0, 255]))) :=
  ⟨⟨by decide, claim_C5_total_hex_fallback.1 [65, 66] (by decide)⟩,
   ⟨by decide, rfl, rfl, rfl,
    claim_C5_total_hex_fallback.2 [216, 0, 255] (by decide) rfl rfl rfl⟩⟩

/-! ### Session field records (parse_session_to_csv.py / serato_monitor.py) -/

/-- Python dict assignment `fields[k] = v` on an association list: replace
    in place when the key exists, else append. -/
def dictInsert (m : List (Nat × List Nat)) (k : Nat) (v : List Nat) :
    List (Nat × List Nat) :=
  if m.any (fun kv => kv.1 == k) then
    m.map (fun kv => if kv.1 == k then (k, v) else kv)
  else m ++ [(k, v)]

/-- Python `fields.get(k, dflt)`. -/
def dictGet (m : List (Nat × List Nat)) (k : Nat) (dflt : List Nat) : List Nat :=
  match m.find? (fun kv => kv.1 == k) with
  | some kv => kv.2
  | none => dflt

/-- Python `parse_adat` of parse_session_to_csv.py, with explicit fuel:
    read 4-byte big-endian field id and length, stop (returning the fields
    so far) when fewer than 8 bytes remain or the value would overrun. -/
def parseAdatF : Nat → List Nat → List (Nat × List Nat) → List (Nat × List Nat)
  | 0, _, acc => acc
  | fuel + 1, data, acc =>
    if data.length < 8 then acc
    else if data.length < 8 + beDec ((data.drop 4).take 4) then acc
    else
      parseAdatF fuel (data.drop (8 + beDec ((data.drop 4).take 4)))
        (dictInsert acc (beDec (data.take 4)) ((data.drop 8).take (beDec ((data.drop 4).take 4))))

/-- parse_session_to_csv.py `parse_adat` (fuel instantiated). -/
def parse_adat (data : List Nat) : List (Nat × List Nat) :=
  parseAdatF (data.length + 1) data []

/-- Python `decode_string` of parse_session_to_csv.py: strict UTF-16BE,
    stripping leading/trailing NULs, with "" on any decode error. -/
def csv_decode_string (bs : List Nat) : String :=
  match utf16beDecodeCh bs with
  | some l => String.mk (pyStripChars (fun c => c == nullChar) l)
  | none => ""

/-- Python `decode_int` (`int.from_bytes(bs, 'big')`, 0 on empty). -/
def decode_int (bs : List Nat) : Nat := beDec bs

/-- Track path of an adat field map: field 2 decoded as text. -/
def adat_track_path (fields : List (Nat × List Nat)) : String :=
  csv_decode_string (dictGet fields 2 [])

/-- Deck-load start timestamp: field 28 as big-endian integer. -/
def adat_start_ts (fields : List (Nat × List Nat)) : Nat :=
  decode_int (dictGet fields 28 [0, 0, 0, 0])

/-- Deck-load end timestamp: field 29 as big-endian integer. -/
def adat_end_ts (fields : List (Nat × List Nat)) : Nat :=
  decode_int (dictGet fields 29 [0, 0, 0, 0])

/-- Deck index: field 31 as big-endian integer (serato_monitor.py main). -/
def adat_deck (fields : List (Nat × List Nat)) : Nat :=
  decode_int (dictGet fields 31 [])

/-- Play duration: `end - start` when positive, else 0
    (parse_session_to_csv.py lines 105-106). -/
def adat_duration (fields : List (Nat × List Nat)) : Nat :=
  if adat_end_ts fields > adat_start_ts fields then
    adat_end_ts fields - adat_start_ts fields
  else 0

/-! ### Claim C7: concrete adat record scenario -/

/-- The adat content of the claim: field 2 = UTF-16BE "/music/a.mp3"
    (24 bytes), field 28 = 1700000000, field 29 = 1700000100,
    field 31 = 1, each as (4-byte id, 4-byte length, value). -/
def c7Content : List Nat :=
  [0, 0, 0, 2] ++ [0, 0, 0, 24] ++
    [0, 47, 0, 109, 0, 117, 0, 115, 0, 105, 0, 99, 0, 47, 0, 97,
     0, 46, 0, 109, 0, 112, 0, 51] ++
  [0, 0, 0, 28] ++ [0, 0, 0, 4] ++ [101, 83, 241, 0] ++
  [0, 0, 0, 29] ++ [0, 0, 0, 4] ++ [101, 83, 241, 100] ++
  [0, 0, 0, 31] ++ [0, 0, 0, 4] ++ [0, 0, 0, 1]

/-- C7: the adat content holding field 2 = UTF-16BE "/music/a.mp3",
    field 28 = 1700000000, field 29 = 1700000100, field 31 = 1 parses to
    the four-entry field map, whose derived track event has path
    "/music/a.mp3", start 1700000000, end 1700000100, deck 1 and duration
    100 seconds. -/
theorem claim_C7_adat_scenario :
    parse_adat c7Content =
      [(2, [0, 47, 0, 109, 0, 117, 0, 115, 0, 105, 0, 99, 0, 47, 0, 97,
            0, 46, 0, 109, 0, 112, 0, 51]),
       (28, [101, 83, 241, 0]), (29, [101, 83, 241, 100]), (31, [0, 0, 0, 1])] ∧
    adat_track_path (parse_adat c7Content) = "/music/a.mp3" ∧
    adat_start_ts (parse_adat c7Content) = 1700000000 ∧
    adat_end_ts (parse_adat c7Content) = 1700000100 ∧
    adat_deck (parse_adat c7Content) = 1 ∧
    adat_duration (parse_adat c7Content) = 100 :=
  ⟨rfl, rfl, rfl, rfl, rfl, rfl⟩

/-! ### serato_monitor.py session parser -/

/-- Python `_parse_fields` of serato_monitor.py, with explicit fuel: read a
    4-byte field id (stop cleanly if fewer than 4 bytes remain), then a
    4-byte length via `_read_int`, which raises ValueError (`none`) on
    short input; the value read is truncated silently at end of stream. -/
def smParseFieldsF : Nat → List Nat → List (Nat × List Nat) →
    Option (List (Nat × List Nat))
  | 0, _, _ => none
  | fuel + 1, data, acc =>
    if data.length < 4 then some acc
    else if (data.drop 4).length < 4 then none
    else
      smParseFieldsF fuel ((data.drop 8).drop (beDec ((data.drop 4).take 4)))
        (dictInsert acc (beDec (data.take 4)) ((data.drop 8).take (beDec ((data.drop 4).take 4))))

/-- serato_monitor.py `_parse_fields` (fuel instantiated). -/
def sm_parse_fields (data : List Nat) : Option (List (Nat × List Nat)) :=
  smParseFieldsF (data.length + 1) data []

theorem smParseFieldsF_stable : ∀ fuel data acc, data.length < fuel →
    smParseFieldsF fuel data acc = smParseFieldsF (data.length + 1) data acc := by
  intro fuel
  induction fuel using Nat.strong_induction_on with
  | _ fuel ih =>
    intro data acc hlt
    match fuel, hlt with
    | fuel + 1, hlt =>
      rw [smParseFieldsF]
      conv_rhs => rw [smParseFieldsF]
      by_cases h4 : data.length < 4
      · simp [h4]
      · rw [if_neg h4]
        conv_rhs => rw [if_neg h4]
        by_cases h8 : (data.drop 4).length < 4
        · rw [if_pos h8]
          conv_rhs => rw [if_pos h8]
        · rw [if_neg h8]
          conv_rhs => rw [if_neg h8]
          simp only [List.length_drop] at h8
          have hd : ((data.drop 8).drop (beDec ((data.drop 4).take 4))).length <
              data.length := by
            simp only [List.length_drop]
            omega
          rw [ih fuel (by omega) _ _ (by omega)]
          rw [ih data.length (by omega) _ _ (by omega)]

/-- The 4 ASCII bytes of `adat`. -/
def adatTag : List Nat := [97, 100, 97, 116]

/-- The 4 ASCII bytes of `oent`. -/
def oentTag : List Nat := [111, 101, 110, 116]

/-- Python `_parse_oent` of serato_monitor.py: expect an `adat` tag (else
    return without recording anything, `some none`), read its length via
    `_read_int` (ValueError on short input, `none`), parse the fields from
    the adat content, and record the field map only when it is non-empty
    (`if fields:`). -/
def sm_parse_oent (content : List Nat) :
    Option (Option (List (Nat × List Nat))) :=
  if content.take 4 ≠ adatTag then some none
  else if (content.drop 4).length < 4 then none
  else
    match sm_parse_fields ((content.drop 8).take (beDec ((content.drop 4).take 4))) with
    | none => none
    | some flds => if flds = [] then some none else some (some flds)

/-- Python `_parse_chunk` of serato_monitor.py, with explicit fuel: read a
    4-byte tag (stop at end of stream), a 4-byte length (a ValueError from
    `_read_int` is caught and stops the loop), and the chunk content
    (truncated silently at end of stream); an `oent` chunk is handed to
    `_parse_oent`, whose ValueError also stops the loop; every other chunk
    is skipped.  Returns the recorded field maps in stream order. -/
def smParseChunkF : Nat → List Nat → List (List (Nat × List Nat))
  | 0, _ => []
  | fuel + 1, data =>
    if data.length < 4 then []
    else if (data.drop 4).length < 4 then []
    else
      if data.take 4 = oentTag then
        match sm_parse_oent ((data.drop 8).take (beDec ((data.drop 4).take 4))) with
        | none => []
        | some none => smParseChunkF fuel ((data.drop 8).drop (beDec ((data.drop 4).take 4)))
        | some (some flds) =>
          flds :: smParseChunkF fuel ((data.drop 8).drop (beDec ((data.drop 4).take 4)))
      else smParseChunkF fuel ((data.drop 8).drop (beDec ((data.drop 4).take 4)))

/-- serato_monitor.py `_parse_chunk` (fuel instantiated). -/
def sm_parse_chunk (data : List Nat) : List (List (Nat × List Nat)) :=
  smParseChunkF (data.length + 1) data

theorem smParseChunkF_stable : ∀ fuel data, data.length < fuel →
    smParseChunkF fuel data = smParseChunkF (data.length + 1) data := by
  intro fuel
  induction fuel using Nat.strong_induction_on with
  | _ fuel ih =>
    intro data hlt
    match fuel, hlt with
    | fuel + 1, hlt =>
      rw [smParseChunkF]
      conv_rhs => rw [smParseChunkF]
      by_cases h4 : data.length < 4
      · simp [h4]
      · rw [if_neg h4]
        conv_rhs => rw [if_neg h4]
        by_cases h8 : (data.drop 4).length < 4
        · rw [if_pos h8]
          conv_rhs => rw [if_pos h8]
        · rw [if_neg h8]
          conv_rhs => rw [if_neg h8]
          simp only [List.length_drop] at h8
          have hd : ((data.drop 8).drop (beDec ((data.drop 4).take 4))).length <
              data.length := by
            simp only [List.length_drop]
            omega
          have e : smParseChunkF fuel ((data.drop 8).drop (beDec ((data.drop 4).take 4))) =
              smParseChunkF data.length ((data.drop 8).drop (beDec ((data.drop 4).take 4))) := by
            rw [ih fuel (by omega) _ (by omega)]
            rw [ih data.length (by omega) _ (by omega)]
          by_cases ho : data.take 4 = oentTag
          · rw [if_pos ho]
            conv_rhs => rw [if_pos ho]
            rw [e]
          · rw [if_neg ho]
            conv_rhs => rw [if_neg ho]
            rw [e]

/-! ### Claim C9: retention of parsed adat records -/

/-- Serialize a field list as the flat (4-byte id, 4-byte length, value)
    sequence of an adat content. -/
def encodeFields : List (Nat × List Nat) → List Nat
  | [] => []
  | (k, v) :: rest => be32enc k ++ (be32enc v.length ++ (v ++ encodeFields rest))

/-- Serialize one oent record wrapping a single adat record holding the
    given fields. -/
def encodeOent (r : List (Nat × List Nat)) : List Nat :=
  oentTag ++ (be32enc (8 + (encodeFields r).length) ++
    (adatTag ++ (be32enc (encodeFields r).length ++ encodeFields r)))

/-- Pairwise-distinct field ids. -/
def keysDistinct : List (Nat × List Nat) → Bool
  | [] => true
  | (k, _) :: rest => !(rest.any (fun kv => kv.1 == k)) && keysDistinct rest

/-- Well-formed field list: distinct ids, ids and value lengths in `u32`
    range, and a total adat length that fits the oent length field. -/
def wfFields (r : List (Nat × List Nat)) : Bool :=
  keysDistinct r &&
    r.all (fun kv => decide (kv.1 < 4294967296) && decide (kv.2.length < 4294967296)) &&
    decide ((encodeFields r).length + 8 < 4294967296)

theorem dictInsert_fresh (m : List (Nat × List Nat)) (k : Nat) (v : List Nat)
    (h : m.any (fun kv => kv.1 == k) = false) :
    dictInsert m k v = m ++ [(k, v)] := by
  simp only [dictInsert, h]
  rfl

theorem smParseFields_encode : ∀ (r acc : List (Nat × List Nat)),
    keysDistinct r = true →
    (∀ kv ∈ r, kv.1 < 4294967296 ∧ kv.2.length < 4294967296) →
    (∀ kv ∈ r, acc.any (fun kv2 => kv2.1 == kv.1) = false) →
    ∀ fuel, (encodeFields r).length < fuel →
    smParseFieldsF fuel (encodeFields r) acc = some (acc ++ r) := by
  intro r
  induction r with
  | nil =>
    intro acc _ _ _ fuel hf
    match fuel, hf with
    | fuel + 1, _ =>
      rw [encodeFields, smParseFieldsF, if_pos (by simp)]
      simp
  | cons kv rest ih =>
    obtain ⟨k, v⟩ := kv
    intro acc hd hs hfresh fuel hf
    rw [encodeFields] at hf ⊢
    match fuel, hf with
    | fuel + 1, hf =>
      have e_take : (be32enc k ++ (be32enc v.length ++ (v ++ encodeFields rest))).take 4 =
          be32enc k := List.take_left' (be32enc_length k)
      have e_d4 : (be32enc k ++ (be32enc v.length ++ (v ++ encodeFields rest))).drop 4 =
          be32enc v.length ++ (v ++ encodeFields rest) := List.drop_left' (be32enc_length k)
      have e_lf : ((be32enc k ++ (be32enc v.length ++ (v ++ encodeFields rest))).drop 4).take 4 =
          be32enc v.length := by
        rw [e_d4]
        exact List.take_left' (be32enc_length v.length)
      have e_d8 : (be32enc k ++ (be32enc v.length ++ (v ++ encodeFields rest))).drop 8 =
          v ++ encodeFields rest := by
        have : (8 : Nat) = 4 + 4 := rfl
        rw [this, ← List.drop_drop, e_d4]
        exact List.drop_left' (be32enc_length v.length)
      have hXlen : (be32enc k ++ (be32enc v.length ++ (v ++ encodeFields rest))).length =
          8 + v.length + (encodeFields rest).length := by
        simp [List.length_append, be32enc_length]
        omega
      simp only [List.mem_cons, forall_eq_or_imp] at hd hs hfresh
      rw [keysDistinct, Bool.and_eq_true] at hd
      rw [smParseFieldsF]
      rw [if_neg (by omega), if_neg (by simp only [List.length_drop]; omega)]
      rw [e_take, e_lf, e_d8]
      rw [beDec_be32enc k (hs.1.1), beDec_be32enc v.length (hs.1.2)]
      rw [List.take_left' rfl, List.drop_left' rfl]
      rw [dictInsert_fresh acc k v (hfresh.1)]
      rw [ih (acc ++ [(k, v)]) hd.2 hs.2 ?fresh fuel (by omega)]
      · simp
      case fresh =>
        intro kv hkv
        rw [List.any_append]
        rw [hfresh.2 kv hkv]
        simp only [List.any_cons, List.any_nil, Bool.or_false, Bool.false_or]
        have hrestany : rest.any (fun kv2 => kv2.1 == k) = false := by
          have h1 := hd.1
          rwa [Bool.not_eq_true'] at h1
        have hne : kv.1 ≠ k := by
          intro hcon
          have htrue : rest.any (fun kv2 => kv2.1 == k) = true :=
            List.any_eq_true.mpr ⟨kv, hkv, by simp [hcon]⟩
          rw [hrestany] at htrue
          exact absurd htrue (by simp)
        simp only [beq_eq_false_iff_ne, ne_eq]
        omega

theorem sm_parse_oent_encode (r : List (Nat × List Nat))
    (hd : keysDistinct r = true)
    (hs : ∀ kv ∈ r, kv.1 < 4294967296 ∧ kv.2.length < 4294967296)
    (hL : (encodeFields r).length < 4294967296) :
    sm_parse_oent (adatTag ++ (be32enc (encodeFields r).length ++ encodeFields r)) =
      (if r = [] then some none else some (some r)) := by
  have e_take : (adatTag ++ (be32enc (encodeFields r).length ++ encodeFields r)).take 4 =
      adatTag := List.take_left' rfl
  have e_d4 : (adatTag ++ (be32enc (encodeFields r).length ++ encodeFields r)).drop 4 =
      be32enc (encodeFields r).length ++ encodeFields r := List.drop_left' rfl
  have e_lf : ((adatTag ++ (be32enc (encodeFields r).length ++ encodeFields r)).drop 4).take 4 =
      be32enc (encodeFields r).length := by
    rw [e_d4]
    exact List.take_left' (be32enc_length _)
  have e_d8 : (adatTag ++ (be32enc (encodeFields r).length ++ encodeFields r)).drop 8 =
      encodeFields r := by
    have : (8 : Nat) = 4 + 4 := rfl
    rw [this, ← List.drop_drop, e_d4]
    exact List.drop_left' (be32enc_length _)
  unfold sm_parse_oent
  rw [if_neg (fun hh => hh e_take)]
  rw [if_neg (by rw [e_d4]; simp [List.length_append, be32enc_length])]
  rw [e_lf, beDec_be32enc _ hL, e_d8]
  rw [List.take_length]
  have hpf : sm_parse_fields (encodeFields r) = some r := by
    unfold sm_parse_fields
    rw [smParseFields_encode r [] hd hs (by simp) ((encodeFields r).length + 1) (by omega)]
    simp
  rw [hpf]

/-- C9 counterexample: a stream holding one `oent` record wrapping an
    `adat` record of length 0 parses that record successfully to an empty
    field map, yet `_parse_oent`'s `if fields:` guard discards it: the
    decoder's output sequence is empty. -/
theorem claim_C9_counterexample :
    sm_parse_chunk [111, 101, 110, 116, 0, 0, 0, 8, 97, 100, 97, 116, 0, 0, 0, 0] = [] :=
  rfl

/-- C9 amended: every adat record whose parsed field map is non-empty is
    retained in stream order (in particular records with no title or artist
    field); a record whose field map is empty is dropped by the
    `if fields:` guard.  Stated for any stream of well-formed oent-wrapped
    records. -/
theorem claim_C9_retention (recs : List (List (Nat × List Nat)))
    (hwf : ∀ r ∈ recs, wfFields r = true) :
    sm_parse_chunk ((recs.map encodeOent).join) =
      recs.filter (fun r => !r.isEmpty) := by
  induction recs with
  | nil => rfl
  | cons r rest ih =>
    simp only [List.mem_cons, forall_eq_or_imp] at hwf
    have hwfr := hwf.1
    rw [wfFields, Bool.and_eq_true, Bool.and_eq_true] at hwfr
    obtain ⟨⟨hd, hall⟩, hlen⟩ := hwfr
    have hs : ∀ kv ∈ r, kv.1 < 4294967296 ∧ kv.2.length < 4294967296 := by
      intro kv hkv
      have := List.all_eq_true.mp hall kv hkv
      rw [Bool.and_eq_true, decide_eq_true_eq, decide_eq_true_eq] at this
      exact this
    have hlen' : (encodeFields r).length + 8 < 4294967296 := by
      simpa using hlen
    have hstream : (List.map encodeOent (r :: rest)).join =
        oentTag ++ (be32enc (8 + (encodeFields r).length) ++
          ((adatTag ++ (be32enc (encodeFields r).length ++ encodeFields r)) ++
            (List.map encodeOent rest).join)) := by
      simp only [List.map_cons, List.join, encodeOent]
      simp [List.append_assoc]
    rw [hstream]
    have e_take : (oentTag ++ (be32enc (8 + (encodeFields r).length) ++
        ((adatTag ++ (be32enc (encodeFields r).length ++ encodeFields r)) ++
          (List.map encodeOent rest).join))).take 4 = oentTag := List.take_left' rfl
    have e_d4 : (oentTag ++ (be32enc (8 + (encodeFields r).length) ++
        ((adatTag ++ (be32enc (encodeFields r).length ++ encodeFields r)) ++
          (List.map encodeOent rest).join))).drop 4 =
        be32enc (8 + (encodeFields r).length) ++
          ((adatTag ++ (be32enc (encodeFields r).length ++ encodeFields r)) ++
            (List.map encodeOent rest).join) := List.drop_left' rfl
    have e_lf : ((oentTag ++ (be32enc (8 + (encodeFields r).length) ++
        ((adatTag ++ (be32enc (encodeFields r).length ++ encodeFields r)) ++
          (List.map encodeOent rest).join))).drop 4).take 4 =
        be32enc (8 + (encodeFields r).length) := by
      rw [e_d4]
      exact List.take_left' (be32enc_length _)
    have e_d8 : (oentTag ++ (be32enc (8 + (encodeFields r).length) ++
        ((adatTag ++ (be32enc (encodeFields r).length ++ encodeFields r)) ++
          (List.map encodeOent rest).join))).drop 8 =
        (adatTag ++ (be32enc (encodeFields r).length ++ encodeFields r)) ++
          (List.map encodeOent rest).join := by
      have : (8 : Nat) = 4 + 4 := rfl
      rw [this, ← List.drop_drop, e_d4]
      exact List.drop_left' (be32enc_length _)
    have hAlen : (adatTag ++ (be32enc (encodeFields r).length ++ encodeFields r)).length =
        8 + (encodeFields r).length := by
      simp [adatTag, List.length_append, be32enc_length]
      omega
    unfold sm_parse_chunk
    rw [smParseChunkF]
    rw [if_neg (by simp [oentTag, List.length_append]),
      if_neg (by rw [e_d4]; simp [adatTag, List.length_append, be32enc_length])]
    rw [e_take, if_pos rfl, e_lf, beDec_be32enc _ (by omega), e_d8]
    rw [List.take_left' hAlen, List.drop_left' hAlen]
    rw [sm_parse_oent_encode r hd hs (by omega)]
    have hrest : smParseChunkF (oentTag ++ (be32enc (8 + (encodeFields r).length) ++
        ((adatTag ++ (be32enc (encodeFields r).length ++ encodeFields r)) ++
          (List.map encodeOent rest).join))).length ((List.map encodeOent rest).join) =
        sm_parse_chunk ((List.map encodeOent rest).join) := by
      rw [smParseChunkF_stable _ _ (by simp [List.length_append, be32enc_length]; omega)]
      rfl
    by_cases hr : r = []
    · rw [if_pos hr]
      rw [hrest, ih hwf.2]
      rw [hr]
      simp [List.filter]
    · rw [if_neg hr]
      rw [hrest, ih hwf.2]
      have : (!r.isEmpty) = true := by
        cases r with
        | nil => exact absurd rfl hr
        | cons a l => rfl
      simp [List.filter, this]

theorem claim_C9_retention_witness :
    (∀ r ∈ [[(99, [1, 2])], ([] : List (Nat × List Nat))], wfFields r = true) ∧
    sm_parse_chunk (([[(99, [1, 2])], ([] : List (Nat × List Nat))].map encodeOent).join) =
      [[(99, [1, 2])]] := by
  have h : ∀ r ∈ [[(99, [1, 2])], ([] : List (Nat × List Nat))], wfFields r = true := by
    decide
  refine ⟨h, (claim_C9_retention [[(99, [1, 2])], []] h).trans ?_⟩
  rfl

/-! ### update_crate_paths (parse_serato_crates.py) -/

/-- Python `os.path.basename` (POSIX): the part after the last slash. -/
def basename (s : String) : String :=
  String.mk ((s.data.reverse.takeWhile (fun c => c != '/')).reverse)

/-- Python `os.path.join(a, b)` (POSIX, two arguments). -/
def pathJoin (a b : String) : String :=
  if b.data.head? = some '/' then b
  else if a.data = [] then b
  else if a.data.getLast? = some '/' then a ++ b
  else a ++ "/" ++ b

/-- Substring test on character lists (Python `sub in s`). -/
def hasInfix (sub : List Char) : List Char → Bool
  | [] => sub.isEmpty
  | c :: rest => sub.isPrefixOf (c :: rest) || hasInfix sub rest

/-- Python `sub in s` for strings. -/
def strContains (s sub : String) : Bool := hasInfix sub.data s.data

/-- The hard-coded cache directory of `update_crate_paths`. -/
def SC_CACHE_DIR : String := "Users/fraser.langton/Music/soundcloud/CACHE"

/-- Python `update_path` of parse_serato_crates.py: for a path containing
    "soundcloud", rebuild it as `SC_CACHE_DIR/<basename>`; report `true`
    exactly when the rebuilt path differs from the original. -/
def update_path (p : String) : String × Bool :=
  if strContains p "soundcloud" then
    if pathJoin SC_CACHE_DIR (basename p) ≠ p then
      (pathJoin SC_CACHE_DIR (basename p), true)
    else (p, false)
  else (p, false)

mutual
/-- One entry of `update_structure`: a string value under tag `ptrk` is
    rewritten through `update_path`; a list value is recursed into; all
    other values are untouched.  The Bool is the contribution to the
    nonlocal `changes_made` flag. -/
def update_entry : String → TlvValue → TlvValue × Bool
  | tag, TlvValue.text s =>
    if tag = "ptrk" then (TlvValue.text (update_path s).1, (update_path s).2)
    else (TlvValue.text s, false)
  | _, TlvValue.container es =>
    (TlvValue.container (update_entries es).1, (update_entries es).2)
  | _, v => (v, false)
termination_by tag v => (sizeOf v, 0)

/-- Python `update_structure` of `update_crate_paths`, returning the
    updated entry list and whether any replacement changed a string. -/
def update_entries : List (String × TlvValue) → List (String × TlvValue) × Bool
  | [] => ([], false)
  | (tag, v) :: rest =>
    ((tag, (update_entry tag v).1) :: (update_entries rest).1,
      (update_entry tag v).2 || (update_entries rest).2)
termination_by es => (sizeOf es, 1)
end

mutual
/-- The `ptrk`-tagged string leaves reachable from one entry, in traversal
    order. -/
def ptrk_texts_entry : String → TlvValue → List String
  | tag, TlvValue.text s => if tag = "ptrk" then [s] else []
  | _, TlvValue.container es => ptrk_texts es
  | _, _ => []
termination_by tag v => (sizeOf v, 0)

/-- The `ptrk`-tagged string leaves of an entry list, in traversal order. -/
def ptrk_texts : List (String × TlvValue) → List String
  | [] => []
  | (tag, v) :: rest => ptrk_texts_entry tag v ++ ptrk_texts rest
termination_by es => (sizeOf es, 1)
end

theorem string_data_append (a b : String) : (a ++ b).data = a.data ++ b.data := by
  cases a
  cases b
  rfl

theorem basename_no_slash (p : String) : ∀ c ∈ (basename p).data, (c != '/') = true := by
  intro c hc
  unfold basename at hc
  rw [List.mem_reverse] at hc
  exact List.mem_takeWhile_imp (p := fun c => c != '/') hc

theorem takeWhile_slashfree (fr rest : List Char) (h : ∀ c ∈ fr, (c != '/') = true) :
    (fr ++ '/' :: rest).takeWhile (fun c => c != '/') = fr := by
  induction fr with
  | nil => simp [List.takeWhile_cons]
  | cons c cs ih =>
    rw [List.cons_append]
    rw [List.takeWhile_cons]
    rw [h c (by simp)]
    rw [ih (fun d hd => h d (by simp [hd]))]
    simp

theorem basename_append_slashfree (a f : String) (hf : ∀ c ∈ f.data, (c != '/') = true) :
    basename (a ++ "/" ++ f) = f := by
  unfold basename
  have hd : (a ++ "/" ++ f).data = a.data ++ ['/'] ++ f.data := by
    rw [string_data_append, string_data_append]
  rw [hd]
  have hrev : (a.data ++ ['/'] ++ f.data).reverse =
      f.data.reverse ++ '/' :: a.data.reverse := by
    simp
  rw [hrev]
  rw [takeWhile_slashfree _ _ (fun c hc => hf c (List.mem_reverse.mp hc))]
  rw [List.reverse_reverse]

theorem hasInfix_nil (l : List Char) : hasInfix [] l = true := by
  induction l with
  | nil => rfl
  | cons c rest ih => simp [hasInfix, List.isPrefixOf]

theorem hasInfix_append_left (sub l1 l2 : List Char) (h : hasInfix sub l1 = true) :
    hasInfix sub (l1 ++ l2) = true := by
  induction l1 with
  | nil =>
    unfold hasInfix at h
    rw [List.isEmpty_iff] at h
    rw [h, List.nil_append]
    exact hasInfix_nil l2
  | cons c rest ih =>
    unfold hasInfix at h
    rw [Bool.or_eq_true] at h
    rw [List.cons_append]
    unfold hasInfix
    rw [Bool.or_eq_true]
    cases h with
    | inl hpre =>
      left
      rw [List.isPrefixOf_iff_prefix] at hpre ⊢
      rw [← List.cons_append]
      exact hpre.trans (List.prefix_append _ _)
    | inr hrest => exact Or.inr (ih hrest)

theorem head_not_slash_of_no_slash (f : String) (hf : ∀ c ∈ f.data, (c != '/') = true) :
    f.data.head? ≠ some '/' := by
  cases hfd : f.data with
  | nil => simp
  | cons c rest =>
    simp only [List.head?, ne_eq, Option.some.injEq]
    intro hc
    have := hf c (by rw [hfd]; simp)
    rw [hc] at this
    simp at this

theorem pathJoin_cache (f : String) (hf : f.data.head? ≠ some '/') :
    pathJoin SC_CACHE_DIR f = SC_CACHE_DIR ++ "/" ++ f := by
  unfold pathJoin
  rw [if_neg hf, if_neg (by decide), if_neg (by decide)]

theorem strContains_cache_join (f : String) :
    strContains (SC_CACHE_DIR ++ "/" ++ f) "soundcloud" = true := by
  unfold strContains
  rw [string_data_append, string_data_append]
  rw [List.append_assoc]
  apply hasInfix_append_left
  decide

/-- Applying `update_path` to an already-updated path reports no change:
    the rewritten path still contains "soundcloud", its basename is the
    same filename, and rejoining reproduces it. -/
theorem update_path_idem (p : String) : (update_path (update_path p).1).2 = false := by
  unfold update_path
  by_cases hc : strContains p "soundcloud" = true
  · rw [if_pos hc]
    by_cases hne : pathJoin SC_CACHE_DIR (basename p) ≠ p
    · rw [if_pos hne]
      have hf := basename_no_slash p
      have hjoin : pathJoin SC_CACHE_DIR (basename p) =
          SC_CACHE_DIR ++ "/" ++ basename p :=
        pathJoin_cache _ (head_not_slash_of_no_slash _ hf)
      rw [hjoin]
      rw [if_pos (strContains_cache_join (basename p))]
      have hbn : basename (SC_CACHE_DIR ++ "/" ++ basename p) = basename p :=
        basename_append_slashfree _ _ hf
      rw [hbn, hjoin]
      rw [if_neg (by simp)]
    · rw [if_neg hne]
      rw [if_pos hc, if_neg hne]
  · rw [if_neg hc, if_neg hc]

theorem update_path_flag (s : String) :
    (update_path s).2 = decide ((update_path s).1 ≠ s) := by
  unfold update_path
  by_cases hc : strContains s "soundcloud" = true
  · rw [if_pos hc]
    by_cases hne : pathJoin SC_CACHE_DIR (basename s) ≠ s
    · rw [if_pos hne]
      simp [hne]
    · rw [if_neg hne]
      simp
  · rw [if_neg hc]
    simp

mutual
theorem update_entry_idem : ∀ (tag : String) (v : TlvValue),
    (update_entry tag (update_entry tag v).1).2 = false
  | tag, TlvValue.text s => by
    by_cases htag : tag = "ptrk"
    · have e1 : update_entry tag (TlvValue.text s) =
          (TlvValue.text (update_path s).1, (update_path s).2) := by
        simp [update_entry, htag]
      rw [e1]
      have e2 : update_entry tag (TlvValue.text (update_path s).1) =
          (TlvValue.text (update_path (update_path s).1).1,
            (update_path (update_path s).1).2) := by
        simp [update_entry, htag]
      simp only [e2]
      exact update_path_idem s
    · simp [update_entry, htag]
  | tag, TlvValue.container es => by
    have e1 : update_entry tag (TlvValue.container es) =
        (TlvValue.container (update_entries es).1, (update_entries es).2) := by
      simp [update_entry]
    rw [e1]
    have e2 : update_entry tag (TlvValue.container (update_entries es).1) =
        (TlvValue.container (update_entries (update_entries es).1).1,
          (update_entries (update_entries es).1).2) := by
      simp [update_entry]
    simp only [e2]
    exact update_entries_idem es
  | tag, TlvValue.uint n => by simp [update_entry]
  | tag, TlvValue.raw bs => by simp [update_entry]
termination_by tag v => (sizeOf v, 0)

theorem update_entries_idem : ∀ es : List (String × TlvValue),
    (update_entries (update_entries es).1).2 = false
  | [] => by simp [update_entries]
  | (tag, v) :: rest => by
    simp only [update_entries]
    rw [update_entry_idem tag v, update_entries_idem rest]
    rfl
termination_by es => (sizeOf es, 1)
end

mutual
theorem update_entry_char : ∀ (tag : String) (v : TlvValue),
    (update_entry tag v).2 =
      (ptrk_texts_entry tag v).any (fun s => decide ((update_path s).1 ≠ s))
  | tag, TlvValue.text s => by
    by_cases htag : tag = "ptrk"
    · simp only [update_entry, ptrk_texts_entry, if_pos htag]
      simp only [List.any_cons, List.any_nil, Bool.or_false]
      exact update_path_flag s
    · simp [update_entry, ptrk_texts_entry, htag]
  | tag, TlvValue.container es => by
    simp only [update_entry, ptrk_texts_entry]
    exact update_entries_char es
  | tag, TlvValue.uint n => by simp [update_entry, ptrk_texts_entry]
  | tag, TlvValue.raw bs => by simp [update_entry, ptrk_texts_entry]
termination_by tag v => (sizeOf v, 0)

theorem update_entries_char : ∀ es : List (String × TlvValue),
    (update_entries es).2 =
      (ptrk_texts es).any (fun s => decide ((update_path s).1 ≠ s))
  | [] => by simp [update_entries, ptrk_texts]
  | (tag, v) :: rest => by
    simp only [update_entries, ptrk_texts, List.any_append]
    rw [update_entry_char tag v, update_entries_char rest]
termination_by es => (sizeOf es, 1)
end

/-! ### Claim C8: idempotence of the track-path rewrite -/

/-- C8: the code's path rewrite is itself idempotent; applying
    `update_crate_paths`' traversal twice reports `changed = false` on the
    second application; and for any decoded tree the traversal reports
    `changed = true` exactly when some `ptrk` replacement produced a string
    different from the original. -/
theorem claim_C8_rewrite_idempotent :
    (∀ p : String, (update_path (update_path p).1).1 = (update_path p).1) ∧
    (∀ es : List (String × TlvValue), (update_entries (update_entries es).1).2 = false) ∧
    (∀ es : List (String × TlvValue),
      (update_entries es).2 = true ↔ ∃ s ∈ ptrk_texts es, (update_path s).1 ≠ s) := by
  refine ⟨?_, update_entries_idem, ?_⟩
  · intro p
    have h := update_path_idem p
    rw [update_path_flag] at h
    simpa using h
  · intro es
    rw [update_entries_char, List.any_eq_true]
    simp
